import Mathlib

/-!
Verification development for the hierarchical legal-text segmenter of the
labor-law-guardian repository (backend/app/rag/ingestion/law_article_chunker.py
and backend/app/rag/models/ingestion_models.py).

The Python code is shallowly embedded: each method of LawArticleChunker becomes
a Lean function with the same name (leading underscores dropped).  Python
strings are modelled as Lean String or List Char; machine integers are Int/Nat;
a Python function that can raise an uncaught exception is modelled as returning
Option (none = the call raises).  The two regular expressions used by the
chunker are embedded as deterministic scanners: both patterns have the form
anchor, greedy whitespace, a literal, a greedy character-class run, a literal,
where each greedy run is followed by a character outside its class, so the
regex engine's backtracking search coincides with maximal-munch scanning and
re.finditer coincides with the leftmost-then-skip-to-end loop implemented
here.  Whitespace and digits are modelled by their ASCII parts of the Python
classes (the repository's inputs are Chinese legal text with ASCII markers;
no claim here depends on non-ASCII whitespace or digits).
-/

/-- ASCII part of the Python regex class \s and of str.strip's whitespace. -/
def isWs (c : Char) : Bool :=
  c == ' ' || c == '\t' || c == '\n' || c == '\r' || c == '\x0b' || c == '\x0c'

/-- ASCII part of the Python regex class \d and of str.isdigit. -/
def isPyDigit (c : Char) : Bool :=
  '0' ≤ c && c ≤ '9'

/-- Numeric value of an ASCII digit character. -/
def chVal (c : Char) : Nat := c.toNat - 48

/-- Value of a run of ASCII digit characters, as int() computes it. -/
def digitsVal (ds : List Char) : Nat :=
  ds.foldl (fun a c => 10 * a + chVal c) 0

/-- The ASCII digit character for a value below ten. -/
def digChar : Nat → Char
  | 0 => '0' | 1 => '1' | 2 => '2' | 3 => '3' | 4 => '4'
  | 5 => '5' | 6 => '6' | 7 => '7' | 8 => '8' | 9 => '9'
  | _ + 10 => '0'

/-- Decimal digit string of a natural number (fuel-based so that it is
structural); with fuel above n this is Python's str(n). -/
def natChars : Nat → Nat → List Char
  | 0, _ => []
  | fuel + 1, n => if n < 10 then [digChar n] else natChars fuel (n / 10) ++ [digChar (n % 10)]

/-- Python str(n) for a natural number n. -/
def natStr (n : Nat) : String := ⟨natChars (n + 1) n⟩

/-- Python str.strip() restricted to ASCII whitespace. -/
def pyStrip (cs : List Char) : List Char :=
  ((cs.dropWhile isWs).reverse.dropWhile isWs).reverse

/-- Python slice text[a:b] (for 0 ≤ a ≤ b ≤ len). -/
def pySlice (cs : List Char) (a b : Nat) : List Char :=
  (cs.drop a).take (b - a)

/-- Python str.split(sep) with a one-character separator: splits at every
occurrence, so a string with k separators yields k+1 (possibly empty) parts. -/
def pySplit (sep : Char) : List Char → List (List Char)
  | [] => [[]]
  | c :: rest =>
    if c == sep then [] :: pySplit sep rest
    else match pySplit sep rest with
      | h :: t => (c :: h) :: t
      | [] => [[c]]

/-- Python int(s) on a str: strips surrounding whitespace, accepts an optional
sign followed by a nonempty ASCII digit run, raises ValueError (none)
otherwise.  (Underscore digit grouping and non-ASCII digits are not modelled;
no input appearing in this development contains them.) -/
def pyIntAux : List Char → Option Int
  | [] => none
  | c :: ds =>
    if c = '+' then
      if ds ≠ [] ∧ ds.all isPyDigit then some (digitsVal ds) else none
    else if c = '-' then
      if ds ≠ [] ∧ ds.all isPyDigit then some (-(digitsVal ds : Int)) else none
    else
      if (c :: ds).all isPyDigit then some (digitsVal (c :: ds)) else none

def pyInt (s : String) : Option Int :=
  pyIntAux (pyStrip s.data)

/-- Python str.isdigit() restricted to ASCII digits. -/
def pyIsdigit (s : String) : Bool :=
  !s.data.isEmpty && s.data.all isPyDigit

/-- Indexing into the Python string "零一二三四五六七八九" at a nonnegative
index below ten (all call sites below guard the index). -/
def zhDigit : Nat → String
  | 0 => "零" | 1 => "一" | 2 => "二" | 3 => "三" | 4 => "四"
  | 5 => "五" | 6 => "六" | 7 => "七" | 8 => "八" | 9 => "九"
  | _ + 10 => "零"

/-- LawArticleChunker._convert_to_chinese_numeral.  Python // and % on ints
are floor division and sign-of-divisor remainder, i.e. Int.fdiv and Int.emod
for the positive divisors used here.  The only reachable exception is the
IndexError from digits[h] when h ≥ 10 (i.e. n ≥ 1000), modelled as none;
for negative n the hundreds branch is skipped (h ≤ -1 is not > 0) and the
function silently returns a string, exactly as the Python does. -/
def convert_to_chinese_numeral (n : Int) : Option String :=
  if n = 0 then some "零"
  else if 10 ≤ n ∧ n < 20 then
    if n = 10 then some "十" else some ("十" ++ zhDigit (n - 10).toNat)
  else
    let h := n.fdiv 100
    let t := (n.emod 100).fdiv 10
    let u := n.emod 10
    if 10 ≤ h then none
    else some ((if 0 < h then zhDigit h.toNat ++ "百" else "")
      ++ (if t = 0 then (if 0 < h ∧ 0 < u then "零" else "")
          else if t = 1 ∧ h = 0 then "十" else zhDigit t.toNat ++ "十")
      ++ (if 0 < u then zhDigit u.toNat else ""))

/-- Modelled from the spec (section 4.1 NumeralFormatter), for comparison with
the source implementation: 0 maps to 零; 10 ≤ n < 20 is 十 plus the nonzero
units numeral; otherwise hundreds digit + 百 (when nonzero), tens digit + 十
(omitted when the tens digit is 0, with 零 inserted when hundreds > 0,
tens = 0 and units > 0), then the nonzero units numeral. -/
def specNumeral (n : Nat) : String :=
  if n = 0 then "零"
  else if 10 ≤ n ∧ n < 20 then
    "十" ++ (if n % 10 = 0 then "" else zhDigit (n % 10))
  else
    (if 0 < n / 100 then zhDigit (n / 100) ++ "百" else "")
    ++ (if (n % 100) / 10 = 0 then (if 0 < n / 100 ∧ 0 < n % 10 then "零" else "")
        else zhDigit ((n % 100) / 10) ++ "十")
    ++ (if 0 < n % 10 then zhDigit (n % 10) else "")

/-- ingestion_models.SplitStrategyEnum. -/
inductive SplitStrategyEnum where
  | atomic
  | numeric
  | contextual
  | numeric_contextual
  | parent_child_coarse
deriving DecidableEq, Repr

/-- ingestion_models.HierarchyFine. -/
structure HierarchyFine where
  article : String
  paragraph : Option Nat
  subparagraph : Option Nat
deriving DecidableEq, Repr

/-- ingestion_models.HierarchyCoarse: structurally omits the subparagraph
field, exactly as the Pydantic model does. -/
structure HierarchyCoarse where
  article : String
  paragraph : Option Nat
deriving DecidableEq, Repr

/-- ingestion_models.ChunkMetadataFine (HttpUrl modelled as String). -/
structure ChunkMetadataFine where
  url : String
  split_strategy : SplitStrategyEnum
  is_expanded : Bool
  citation_title : String
  hierarchy : HierarchyFine
  chapter_no : Option Int
  chapter_title : Option String
  article_no : String
deriving DecidableEq, Repr

/-- ingestion_models.ChunkMetadataCoarse. -/
structure ChunkMetadataCoarse where
  url : String
  split_strategy : SplitStrategyEnum
  is_expanded : Bool
  citation_title : String
  hierarchy : HierarchyCoarse
  chapter_no : Option Int
  chapter_title : Option String
  article_no : String
deriving DecidableEq, Repr

/-- ingestion_models.LawChunkFine. -/
structure LawChunkFine where
  chunk_id : String
  parent_id : String
  text : String
  metadata : ChunkMetadataFine
deriving DecidableEq, Repr

/-- ingestion_models.LawChunkCoarse. -/
structure LawChunkCoarse where
  chunk_id : String
  parent_id : String
  text : String
  metadata : ChunkMetadataCoarse
deriving DecidableEq, Repr

/-- ingestion_models.RawLawArticle (related_concepts omitted: never read by
the chunker). -/
structure RawLawArticle where
  id : String
  chapter_no : Option Int
  chapter_name : Option String
  article_no : String
  summary : Option String
  content : String
  url : String
deriving DecidableEq, Repr

/-- ingestion_models.LawChunk, the union LawChunkFine | LawChunkCoarse. -/
inductive LawChunk where
  | fine (c : LawChunkFine)
  | coarse (c : LawChunkCoarse)
deriving DecidableEq, Repr

def LawChunk.chunk_id : LawChunk → String
  | .fine c => c.chunk_id
  | .coarse c => c.chunk_id

def LawChunk.parent_id : LawChunk → String
  | .fine c => c.parent_id
  | .coarse c => c.parent_id

def LawChunk.text : LawChunk → String
  | .fine c => c.text
  | .coarse c => c.text

def LawChunk.split_strategy : LawChunk → SplitStrategyEnum
  | .fine c => c.metadata.split_strategy
  | .coarse c => c.metadata.split_strategy

def LawChunk.is_expanded : LawChunk → Bool
  | .fine c => c.metadata.is_expanded
  | .coarse c => c.metadata.is_expanded

def LawChunk.paragraphOf : LawChunk → Option Nat
  | .fine c => c.metadata.hierarchy.paragraph
  | .coarse c => c.metadata.hierarchy.paragraph

/-- The subparagraph address of a chunk; a coarse chunk's hierarchy has no
such field, so it reads as none. -/
def LawChunk.subparagraphOf : LawChunk → Option Nat
  | .fine c => c.metadata.hierarchy.subparagraph
  | .coarse _ => none

/-- Python's `sep in s` membership test for a character. -/
def pyContains (l : List Char) (a : Char) : Bool :=
  l.any (fun c => c == a)

/-- The art_text block shared verbatim by _format_citation_fine and
_format_citation_coarse.  "-" in art_str is membership of the character;
art_str.split("-") must unpack into exactly two names or the call raises
ValueError (none); int() on either part may raise (none). -/
def citationArtText (art : String) : Option String :=
  if pyContains art.data '-' then
    match pySplit '-' art.data with
    | [m, s] => do
      let mi ← pyInt ⟨m⟩
      let mc ← convert_to_chinese_numeral mi
      let si ← pyInt ⟨s⟩
      let sc ← convert_to_chinese_numeral si
      pure ("第" ++ mc ++ "條之" ++ sc)
    | _ => none
  else
    if pyIsdigit art then do
      let n ← pyInt art
      let c ← convert_to_chinese_numeral n
      pure ("第" ++ c ++ "條")
    else pure ("第" ++ art ++ "條")

/-- LawArticleChunker._format_citation_fine.  Python truthiness makes
`if hierarchy.paragraph:` skip both None and 0, which is the `some (p + 1)`
pattern below (likewise for subparagraph). -/
def format_citation_fine (h : HierarchyFine) : Option String := do
  let artText ← citationArtText h.article
  let t0 := "勞動基準法" ++ artText
  let t1 ←
    match h.paragraph with
    | some (p + 1) => do
      let pc ← convert_to_chinese_numeral ((p : Int) + 1)
      pure (t0 ++ "第" ++ pc ++ "項")
    | _ => pure t0
  match h.subparagraph with
  | some (s + 1) => do
    let sc ← convert_to_chinese_numeral ((s : Int) + 1)
    pure (t1 ++ "第" ++ sc ++ "款")
  | _ => pure t1

/-- LawArticleChunker._format_citation_coarse: same article and paragraph
logic as the fine formatter, with no subparagraph step. -/
def format_citation_coarse (h : HierarchyCoarse) : Option String := do
  let artText ← citationArtText h.article
  let t0 := "勞動基準法" ++ artText
  match h.paragraph with
  | some (p + 1) => do
    let pc ← convert_to_chinese_numeral ((p : Int) + 1)
    pure (t0 ++ "第" ++ pc ++ "項")
  | _ => pure t0

/-- Body of the Pass-A regex (?:^|\n)\s*\((\d+)\) starting right after the
anchor at index q: a greedy whitespace run, '(', a nonempty greedy digit run,
')'.  Returns (captured value, end index of the whole match). -/
def paraBodyAt (cs : List Char) (q : Nat) : Option (Nat × Nat) :=
  let w := ((cs.drop q).takeWhile isWs).length
  match cs.drop (q + w) with
  | '(' :: rest =>
    let ds := rest.takeWhile isPyDigit
    if ds.isEmpty then none
    else
      match cs.drop (q + w + 1 + ds.length) with
      | ')' :: _ => some (digitsVal ds, q + w + 1 + ds.length + 1)
      | _ => none
  | _ => none

/-- re.finditer for the Pass-A pattern: leftmost match whose anchor position
is ≥ p (the anchor ^ fires only at absolute position 0; otherwise the anchor
is a literal newline at the match start), then continue after its end.
Returns (value, match start, match end) triples; the fuel argument bounds the
scan and is always sufficient at the call site below. -/
def findParaFrom (cs : List Char) : Nat → Nat → List (Nat × Nat × Nat)
  | _, 0 => []
  | p, fuel + 1 =>
    if p > cs.length then []
    else
      match (if p = 0 then paraBodyAt cs 0
             else match cs.get? p with
               | some '\n' => paraBodyAt cs (p + 1)
               | _ => none) with
      | some (v, e) => (v, p, e) :: findParaFrom cs e fuel
      | none => findParaFrom cs (p + 1) fuel

/-- All Pass-A matches of a text. -/
def findPara (cs : List Char) : List (Nat × Nat × Nat) :=
  findParaFrom cs 0 (cs.length + 1)

/-- Member of the Pass-B regex class [一二三四五六七八九十百]. -/
def subMarkChar (c : Char) : Bool :=
  c == '一' || c == '二' || c == '三' || c == '四' || c == '五' || c == '六'
  || c == '七' || c == '八' || c == '九' || c == '十' || c == '百'

/-- Body of the Pass-B regex (?:^|\n)\s*([一二三四五六七八九十百]+)、 after
the anchor: greedy whitespace, a nonempty greedy numeral-class run, '、'.
Returns the end index of the whole match (the captured numeral is never used
by the code: subparagraph ids are assigned by encounter order). -/
def subBodyAt (cs : List Char) (q : Nat) : Option Nat :=
  let w := ((cs.drop q).takeWhile isWs).length
  let ds := (cs.drop (q + w)).takeWhile subMarkChar
  if ds.isEmpty then none
  else
    match cs.drop (q + w + ds.length) with
    | '、' :: _ => some (q + w + ds.length + 1)
    | _ => none

/-- re.finditer for the Pass-B pattern, as findParaFrom. -/
def findSubFrom (cs : List Char) : Nat → Nat → List (Nat × Nat)
  | _, 0 => []
  | p, fuel + 1 =>
    if p > cs.length then []
    else
      match (if p = 0 then subBodyAt cs 0
             else match cs.get? p with
               | some '\n' => subBodyAt cs (p + 1)
               | _ => none) with
      | some e => (p, e) :: findSubFrom cs e fuel
      | none => findSubFrom cs (p + 1) fuel

/-- All Pass-B matches of a text. -/
def findSub (cs : List Char) : List (Nat × Nat) :=
  findSubFrom cs 0 (cs.length + 1)

/-- The per-match step of LawArticleChunker._split_by_paragraph: each match's
content runs from its own start to the next match's start (or end of text),
and the stored text is that slice stripped. -/
def splitByParagraphAux (cs : List Char) : List (Nat × Nat × Nat) → List (Nat × List Char × Nat × Nat)
  | [] => []
  | (v, s, _) :: rest =>
    let ce := match rest with
      | [] => cs.length
      | (_, s', _) :: _ => s'
    (v, pyStrip (pySlice cs s ce), s, ce) :: splitByParagraphAux cs rest

/-- LawArticleChunker._split_by_paragraph: list of
(para_num, stripped block text, start index, content end). -/
def split_by_paragraph (cs : List Char) : List (Nat × List Char × Nat × Nat) :=
  splitByParagraphAux cs (findPara cs)

/-- The item texts of _process_subparagraphs_fine: for each Pass-B match, the
slice from its start to the next match's start (or end of text), stripped. -/
def subItemsAux (cs : List Char) : List (Nat × Nat) → List (List Char)
  | [] => []
  | (s, _) :: rest =>
    let ce := match rest with
      | [] => cs.length
      | (s', _) :: _ => s'
    pyStrip (pySlice cs s ce) :: subItemsAux cs rest

/-- The preamble of _process_subparagraphs_fine: text strictly before the
first Pass-B match, stripped ([] when there is no match). -/
def subPreamble (cs : List Char) : List Char :=
  match findSub cs with
  | [] => []
  | (s, _) :: _ => pyStrip (cs.take s)

/-- The chunk id part contributed by `if para_num:` in the Python code:
parent_P{p} for a truthy (present, nonzero) paragraph number, the plain
parent id otherwise. -/
def pTag (parent : String) (para : Option Nat) : String :=
  match para with
  | some (p + 1) => parent ++ "_P" ++ natStr (p + 1)
  | _ => parent

/-- A fine chunk id: the paragraph part, then _S{s} when a subparagraph
ordinal is attached. -/
def mkIdStr (parent : String) (para : Option Nat) (sub : Option Nat) : String :=
  match sub with
  | some s => pTag parent para ++ "_S" ++ natStr s
  | none => pTag parent para

/-- The split strategy chosen by the Pass-B match branch of the Python code
(`if para_num:`): numeric_contextual for a truthy paragraph number,
contextual otherwise. -/
def subStrategy : Option Nat → SplitStrategyEnum
  | some (_ + 1) => SplitStrategyEnum.numeric_contextual
  | _ => SplitStrategyEnum.contextual

/-- The split strategy chosen by the Pass-B fallback branch (`if para_num:`):
numeric for a truthy paragraph number, atomic otherwise. -/
def atomStrategy : Option Nat → SplitStrategyEnum
  | some (_ + 1) => SplitStrategyEnum.numeric
  | _ => SplitStrategyEnum.atomic

/-- The hierarchy built by the Pass-B fallback branch: it keeps the paragraph
number when truthy, and stores None otherwise (the Python else-branch sets
paragraph=None explicitly). -/
def atomHier (article_no : String) : Option Nat → HierarchyFine
  | some (p + 1) => ⟨article_no, some (p + 1), none⟩
  | _ => ⟨article_no, none, none⟩

/-- The loop body of the match branch of _process_subparagraphs_fine: one
chunk per item, current_sub_id = i + 1 by encounter order; the chunk id and
strategy follow the truthiness of para_num (pTag/mkIdStr/subStrategy); the
hierarchy stores para_num as given (including 0); the chunk text is
preamble + item with no separator.  A none from the citation formatter
propagates (uncaught exception). -/
def buildSubChunksFine (parent article_no : String) (base : ChunkMetadataFine)
    (para : Option Nat) (preamble : List Char) : List (List Char) → Nat → Option (List LawChunkFine)
  | [], _ => some []
  | item :: rest, i => do
    let hier : HierarchyFine := ⟨article_no, para, some (i + 1)⟩
    let cit ← format_citation_fine hier
    let meta : ChunkMetadataFine :=
      ⟨base.url, subStrategy para, true, cit, hier, base.chapter_no, base.chapter_title, base.article_no⟩
    let tail ← buildSubChunksFine parent article_no base para preamble rest (i + 1)
    pure (⟨mkIdStr parent para (some (i + 1)), parent, ⟨preamble ++ item⟩, meta⟩ :: tail)

/-- LawArticleChunker._process_subparagraphs_fine.  With no Pass-B match the
fallback chunk is numbered (numeric) only when para_num is truthy, in which
case the hierarchy keeps the paragraph; otherwise chunk_id is the parent id,
the strategy is atomic and the hierarchy paragraph is None. -/
def process_subparagraphs_fine (text : List Char) (parent article_no : String)
    (base : ChunkMetadataFine) (para : Option Nat) : Option (List LawChunkFine) :=
  match findSub text with
  | [] => do
    let cit ← format_citation_fine (atomHier article_no para)
    pure [⟨mkIdStr parent para none, parent, ⟨pyStrip text⟩,
      ⟨base.url, atomStrategy para, false, cit, atomHier article_no para,
       base.chapter_no, base.chapter_title, base.article_no⟩⟩]
  | (s, e) :: rest =>
    buildSubChunksFine parent article_no base para (pyStrip (text.take s))
      (subItemsAux text ((s, e) :: rest)) 0

/-- The loop of _split_recursive_fine over Pass-A blocks: each block is handed
to Pass B carrying its declared paragraph number, and the chunk lists are
concatenated in order. -/
def buildParaGroupsFine (parent article_no : String) (base : ChunkMetadataFine) :
    List (Nat × List Char × Nat × Nat) → Option (List LawChunkFine)
  | [] => some []
  | (v, ptext, _, _) :: rest => do
    let g ← process_subparagraphs_fine ptext parent article_no base (some v)
    let t ← buildParaGroupsFine parent article_no base rest
    pure (g ++ t)

/-- LawArticleChunker._split_recursive_fine. -/
def split_recursive_fine (text : List Char) (parent article_no : String)
    (base : ChunkMetadataFine) : Option (List LawChunkFine) :=
  match split_by_paragraph text with
  | [] => process_subparagraphs_fine text parent article_no base none
  | ps => buildParaGroupsFine parent article_no base ps

/-- LawArticleChunker._split_fine. -/
def split_fine (a : RawLawArticle) : Option (List LawChunkFine) :=
  let hier : HierarchyFine := ⟨a.article_no, none, none⟩
  let base : ChunkMetadataFine :=
    ⟨a.url, SplitStrategyEnum.atomic, false, "", hier, a.chapter_no, a.chapter_name, a.article_no⟩
  split_recursive_fine a.content.data a.id a.article_no base

/-- The loop of the paragraph branch of _split_coarse: one chunk per Pass-A
block, chunk_id built from the declared paragraph number (no truthiness guard
here), strategy numeric, is_expanded False. -/
def buildCoarseChunks (a : RawLawArticle) : List (Nat × List Char × Nat × Nat) → Option (List LawChunkCoarse)
  | [] => some []
  | (v, ptext, _, _) :: rest => do
    let hier : HierarchyCoarse := ⟨a.article_no, some v⟩
    let cit ← format_citation_coarse hier
    let tail ← buildCoarseChunks a rest
    pure (⟨a.id ++ "_P" ++ natStr v, a.id, ⟨ptext⟩,
      ⟨a.url, SplitStrategyEnum.numeric, false, cit, hier,
       a.chapter_no, a.chapter_name, a.article_no⟩⟩ :: tail)

/-- LawArticleChunker._split_coarse. -/
def split_coarse (a : RawLawArticle) : Option (List LawChunkCoarse) :=
  match split_by_paragraph a.content.data with
  | [] => do
    let hier : HierarchyCoarse := ⟨a.article_no, none⟩
    let cit ← format_citation_coarse hier
    pure [⟨a.id, a.id, ⟨pyStrip a.content.data⟩,
      ⟨a.url, SplitStrategyEnum.atomic, false, cit, hier,
       a.chapter_no, a.chapter_name, a.article_no⟩⟩]
  | ps => buildCoarseChunks a ps

/-- LawArticleChunker.parse_article: the strategy string selects the coarse
splitter, anything else takes the fine path. -/
def parse_article (strategy : String) (a : RawLawArticle) : Option (List LawChunk) :=
  if strategy = "PARENT_CHILD_COARSE" then
    (split_coarse a).map (fun l => l.map LawChunk.coarse)
  else
    (split_fine a).map (fun l => l.map LawChunk.fine)

/-- Modelled from the spec (section 4.2): the paragraph citation suffix is
appended exactly for a present nonzero paragraph. -/
def specParaSuffix : Option Nat → String
  | some (p + 1) => "第" ++ specNumeral (p + 1) ++ "項"
  | _ => ""

/-- Modelled from the spec (section 4.2): the subparagraph citation suffix is
appended exactly for a present nonzero subparagraph. -/
def specSubSuffix : Option Nat → String
  | some (s + 1) => "第" ++ specNumeral (s + 1) ++ "款"
  | _ => ""

/-- Domain bound of the numeral formatter for an optional hierarchy field. -/
def boundOK : Option Nat → Prop
  | none => True
  | some p => p ≤ 999

instance (o : Option Nat) : Decidable (boundOK o) :=
  match o with
  | none => isTrue trivial
  | some p => Nat.decLe p 999

/-- Article with two paragraphs that declare the same number (1). -/
def artDup : RawLawArticle := ⟨"A", none, none, "3", none, "(1) a\n(1) b", "http://x"⟩

/-- Article with a single paragraph declaring number 2. -/
def artP2 : RawLawArticle := ⟨"A", none, none, "3", none, "(2) foo", "http://x"⟩

/-- Article whose single paragraph declares number 0 and contains an
enumerated item. -/
def artZero : RawLawArticle := ⟨"A", none, none, "3", none, "(0) X:\n一、a", "http://x"⟩

/-- Article with empty content. -/
def artEmpty : RawLawArticle := ⟨"A", none, none, "3", none, "", "http://x"⟩

/-- Article whose article_no contains a hyphen with a non-numeric part. -/
def artBis : RawLawArticle := ⟨"A", none, none, "84-bis", none, "x", "http://x"⟩

/-- Article with two paragraphs, the first containing two enumerated items. -/
def artNested : RawLawArticle :=
  ⟨"LSA-79", none, none, "79", none, "(1) 前文：\n一、甲\n二、乙\n(2) 次段", "http://x"⟩

/-- The subparagraph tail of a fine chunk id, at character-list level. -/
def sTail : Option Nat → List Char
  | some s => '_' :: 'S' :: (natStr s).data
  | none => []

theorem strApp_data (s t : String) : (s ++ t).data = s.data ++ t.data := rfl

theorem str_ext {a b : String} (h : a.data = b.data) : a = b := by
  cases a; cases b; cases h; rfl

theorem chVal_digChar : ∀ d, d < 10 → chVal (digChar d) = d := by decide

theorem digChar_digit : ∀ d, isPyDigit (digChar d) = true := by
  intro d
  match d with
  | 0 | 1 | 2 | 3 | 4 | 5 | 6 | 7 | 8 | 9 => decide
  | d + 10 => exact rfl

theorem digitsVal_concat (l : List Char) (c : Char) :
    digitsVal (l ++ [c]) = 10 * digitsVal l + chVal c := by
  simp [digitsVal, List.foldl_append]

theorem natChars_val : ∀ fuel n, n < fuel → digitsVal (natChars fuel n) = n := by
  intro fuel
  induction fuel with
  | zero => intro n h; omega
  | succ fuel ih =>
    intro n h
    by_cases h10 : n < 10
    · simp [natChars, h10, digitsVal, chVal_digChar n h10]
    · have hdiv : n / 10 < fuel := by
        have h1 : n / 10 < n := Nat.div_lt_self (by omega) (by omega)
        omega
      rw [natChars, if_neg h10, digitsVal_concat, ih _ hdiv,
        chVal_digChar _ (Nat.mod_lt _ (by omega))]
      omega

theorem natStr_inj {m n : Nat} (h : natStr m = natStr n) : m = n := by
  have hd : natChars (m + 1) m = natChars (n + 1) n := congrArg String.data h
  have := natChars_val (m + 1) m (by omega)
  rw [hd, natChars_val (n + 1) n (by omega)] at this
  omega

theorem natChars_digits : ∀ fuel n c, c ∈ natChars fuel n → isPyDigit c = true := by
  intro fuel
  induction fuel with
  | zero => intro n c h; simp [natChars] at h
  | succ fuel ih =>
    intro n c h
    by_cases h10 : n < 10
    · rw [natChars, if_pos h10] at h
      simp at h
      subst h
      exact digChar_digit n
    · rw [natChars, if_neg h10] at h
      rcases List.mem_append.1 h with h1 | h1
      · exact ih _ _ h1
      · simp at h1; subst h1; exact digChar_digit _

theorem natStr_digits (n : Nat) (c : Char) (h : c ∈ (natStr n).data) : isPyDigit c = true :=
  natChars_digits (n + 1) n c h

theorem natChars_ne_nil : ∀ fuel n, 0 < fuel → natChars fuel n ≠ [] := by
  intro fuel n h
  match fuel, h with
  | fuel + 1, _ =>
    rw [natChars]
    by_cases h10 : n < 10
    · simp [h10]
    · simp [h10]

theorem digits_append_cancel : ∀ (a b x y : List Char),
    (∀ c ∈ a, isPyDigit c = true) → (∀ c ∈ b, isPyDigit c = true) →
    (x = [] ∨ ∃ t, x = '_' :: t) → (y = [] ∨ ∃ t, y = '_' :: t) →
    a ++ x = b ++ y → a = b ∧ x = y := by
  intro a
  induction a with
  | nil =>
    intro b x y _ hb hx _ h
    cases b with
    | nil => simpa using h
    | cons c b' =>
      exfalso
      rcases hx with rfl | ⟨t, rfl⟩
      · simp at h
      · have hc : '_' = c := by
          have := congrArg (List.head?) h
          simpa using this
        have := hb c (by simp)
        rw [← hc] at this
        simp [isPyDigit] at this
  | cons c a' ih =>
    intro b x y ha hb hx hy h
    cases b with
    | nil =>
      exfalso
      rcases hy with rfl | ⟨t, rfl⟩
      · simp at h
      · have hc : c = '_' := by
          have := congrArg (List.head?) h
          simpa using this
        have := ha c (by simp)
        rw [hc] at this
        simp [isPyDigit] at this
    | cons c' b' =>
      simp only [List.cons_append, List.cons.injEq] at h
      obtain ⟨rfl, h2⟩ := h
      obtain ⟨h3, h4⟩ := ih b' x y (fun d hd => ha d (by simp [hd])) (fun d hd => hb d (by simp [hd])) hx hy h2
      exact ⟨by rw [h3], h4⟩

/-- On its documented domain 0..999 the source numeral converter agrees with
the composition rules of the spec. -/
theorem convert_agrees_spec : ∀ n : Nat, n ≤ 999 →
    convert_to_chinese_numeral (n : Int) = some (specNumeral n) := by
  set_option maxRecDepth 10000 in decide

/-- Claim C4: for every integer n with 0 ≤ n ≤ 999, the numeral converter
follows the spec's composition rules (0 as 零; the 10..19 contraction; the
hundreds/tens/units composition with inserted 零), and in particular maps
1, 10, 11, 20, 23, 84, 79 and 100 to the listed numerals. -/
theorem numeral_formatter_spec :
    (∀ n : Nat, n ≤ 999 → convert_to_chinese_numeral (n : Int) = some (specNumeral n)) ∧
    convert_to_chinese_numeral ((1 : Nat) : Int) = some "一" ∧
    convert_to_chinese_numeral ((10 : Nat) : Int) = some "十" ∧
    convert_to_chinese_numeral ((11 : Nat) : Int) = some "十一" ∧
    convert_to_chinese_numeral ((20 : Nat) : Int) = some "二十" ∧
    convert_to_chinese_numeral ((23 : Nat) : Int) = some "二十三" ∧
    convert_to_chinese_numeral ((84 : Nat) : Int) = some "八十四" ∧
    convert_to_chinese_numeral ((79 : Nat) : Int) = some "七十九" ∧
    convert_to_chinese_numeral ((100 : Nat) : Int) = some "一百" :=
  ⟨convert_agrees_spec, by decide, by decide, by decide, by decide, by decide,
   by decide, by decide, by decide⟩

/-- Witness for C4's quantified part at n = 84. -/
theorem numeral_formatter_spec_witness :
    convert_to_chinese_numeral ((84 : Nat) : Int) = some (specNumeral 84) :=
  numeral_formatter_spec.1 84 (by decide)

/-- Claim C5 (code bug evidence): called at -1, outside its valid domain, the
numeral converter does not raise: Python floor division and modulo turn -1
into tens digit 9 and units digit 9 and the function silently returns 九十九,
the numeral it also returns for 99 — a silently wrapped result, which the
spec forbids. -/
theorem numeral_negative_silently_wraps :
    convert_to_chinese_numeral (-1) = some "九十九" ∧
    convert_to_chinese_numeral ((99 : Nat) : Int) = some "九十九" := by decide

/-- Claim C10: with article_no "84-bis" (a hyphen with a non-numeric part)
the int() call inside citation formatting raises an uncaught ValueError and
parse_article aborts for the whole article under both policies, while the
verbatim defensive fallback does apply to a non-hyphenated non-numeric
article string such as "84a". -/
theorem hyphen_nonnumeric_citation_aborts :
    parse_article "PARENT_CHILD_FINE" artBis = none ∧
    parse_article "PARENT_CHILD_COARSE" artBis = none ∧
    format_citation_fine ⟨"84a", none, none⟩ = some "勞動基準法第84a條" := by decide

/-- Counterexample to claim C1 as stated: when the parenthesised paragraph
digits repeat a value, the produced chunk ids collide — content
"(1) a\n(1) b" yields chunk ids A_P1 and A_P1, which are not pairwise
distinct. -/
theorem duplicate_digits_ids_collide :
    (parse_article "PARENT_CHILD_COARSE" artDup).map (fun l => l.map LawChunk.chunk_id)
      = some ["A_P1", "A_P1"] ∧
    ¬ (["A_P1", "A_P1"] : List String).Pairwise (fun a b => a ≠ b) := by decide

/-- Counterexample to claim C2 as stated: for content "(2) foo" the single
(0-indexed i = 0) chunk is addressed A_P2, from the parsed digits, not A_P1
from the encounter ordinal i + 1. -/
theorem address_not_encounter_ordinal :
    (parse_article "PARENT_CHILD_COARSE" artP2).map (fun l => l.map LawChunk.chunk_id)
      = some ["A_P2"] ∧ ("A_P2" : String) ≠ "A_P1" := by decide

/-- Counterexample to claim C3 as stated: with paragraph present but equal to
0 the formatter appends no 項 suffix (Python truthiness), so the suffix is not
appended "exactly when paragraph is present". -/
theorem zero_paragraph_citation_no_suffix :
    format_citation_fine ⟨"5", some 0, none⟩ = some "勞動基準法第五條" ∧
    ("勞動基準法第五條" : String) ≠ "勞動基準法第五條第零項" := by decide

/-- Counterexample to claim C6 as stated: a Pass-B sub-problem whose
paragraph is set to the parsed value 0 (content "(0) X:\n一、a") emits a
chunk with split_strategy contextual, not numeric_contextual, because the
code tests Python truthiness rather than presence. -/
theorem zero_paragraph_strategy_contextual :
    (parse_article "PARENT_CHILD_FINE" artZero).map (fun l => l.map LawChunk.split_strategy)
      = some [SplitStrategyEnum.contextual] ∧
    SplitStrategyEnum.contextual ≠ SplitStrategyEnum.numeric_contextual := by decide

theorem sTail_shape (s? : Option Nat) : sTail s? = [] ∨ ∃ t, sTail s? = '_' :: t := by
  cases s? with
  | none => exact Or.inl rfl
  | some s => exact Or.inr ⟨_, rfl⟩

theorem mkIdStr_data_succ (parent : String) (v : Nat) (s? : Option Nat) :
    (mkIdStr parent (some (v + 1)) s?).data
      = parent.data ++ '_' :: 'P' :: ((natStr (v + 1)).data ++ sTail s?) := by
  have h1 : "_P".data = ['_', 'P'] := rfl
  have h2 : "_S".data = ['_', 'S'] := rfl
  cases s? with
  | none => simp [mkIdStr, pTag, strApp_data, h1, sTail]
  | some s => simp [mkIdStr, pTag, strApp_data, h1, h2, sTail, List.append_assoc]

theorem mkIdStr_data_none (parent : String) (s? : Option Nat) :
    (mkIdStr parent none s?).data = parent.data ++ sTail s? := by
  have h2 : "_S".data = ['_', 'S'] := rfl
  cases s? with
  | none => simp [mkIdStr, pTag, sTail]
  | some s => simp [mkIdStr, pTag, strApp_data, h2, sTail]

theorem mkIdStr_sub_ne (parent : String) (para : Option Nat) {s t : Nat} (h : s ≠ t) :
    mkIdStr parent para (some s) ≠ mkIdStr parent para (some t) := by
  intro he
  apply h
  apply natStr_inj (m := s) (n := t)
  apply str_ext
  have hd := congrArg String.data he
  simp only [mkIdStr, strApp_data] at hd
  exact List.append_cancel_left hd

theorem mkIdStr_para_ne (parent : String) {v w : Nat} (h : v ≠ w) (s? t? : Option Nat) :
    mkIdStr parent (some (v + 1)) s? ≠ mkIdStr parent (some (w + 1)) t? := by
  intro he
  have hd := congrArg String.data he
  rw [mkIdStr_data_succ, mkIdStr_data_succ] at hd
  have hd2 := List.append_cancel_left hd
  simp only [List.cons.injEq, true_and] at hd2
  obtain ⟨hn, _⟩ := digits_append_cancel _ _ _ _
    (fun c hc => natStr_digits _ c hc) (fun c hc => natStr_digits _ c hc)
    (sTail_shape s?) (sTail_shape t?) hd2
  exact h (by have := natStr_inj (str_ext hn); omega)

theorem mkIdStr_zero_ne (parent : String) (w : Nat) (s? t? : Option Nat) :
    mkIdStr parent none s? ≠ mkIdStr parent (some (w + 1)) t? := by
  intro he
  have hd := congrArg String.data he
  rw [mkIdStr_data_none, mkIdStr_data_succ] at hd
  have hd2 := List.append_cancel_left hd
  cases s? with
  | none => simp [sTail] at hd2
  | some s => simp [sTail] at hd2

theorem mkIdStr_group_ne (parent : String) {v w : Nat} (h : v ≠ w) (s? t? : Option Nat) :
    mkIdStr parent (some v) s? ≠ mkIdStr parent (some w) t? := by
  cases v with
  | zero =>
    cases w with
    | zero => exact absurd rfl h
    | succ w =>
      show mkIdStr parent none s? ≠ mkIdStr parent (some (w + 1)) t?
      exact mkIdStr_zero_ne parent w s? t?
  | succ v =>
    cases w with
    | zero =>
      show mkIdStr parent (some (v + 1)) s? ≠ mkIdStr parent none t?
      exact (mkIdStr_zero_ne parent v t? s?).symm
    | succ w => exact mkIdStr_para_ne parent (by omega) s? t?

theorem map_range_congr {α : Type} {n : Nat} {f g : Nat → α} (h : ∀ j, j < n → f j = g j) :
    (List.range n).map f = (List.range n).map g := by
  induction n with
  | zero => rfl
  | succ n ih =>
    rw [List.range_succ, List.map_append, List.map_append, ih (fun j hj => h j (by omega))]
    simp [h n (by omega)]

theorem buildSub_spec (parent article_no : String) (base : ChunkMetadataFine)
    (para : Option Nat) (pre : List Char) :
    ∀ (items : List (List Char)) (i : Nat) (cs : List LawChunkFine),
      buildSubChunksFine parent article_no base para pre items i = some cs →
      cs.map (fun c => c.chunk_id)
        = (List.range items.length).map (fun j => mkIdStr parent para (some (i + j + 1))) ∧
      cs.map (fun c => c.text) = items.map (fun it => String.mk (pre ++ it)) ∧
      cs.map (fun c => c.metadata.hierarchy.subparagraph)
        = (List.range items.length).map (fun j => some (i + j + 1)) ∧
      ∀ c ∈ cs, c.parent_id = parent ∧ c.metadata.is_expanded = true ∧
        c.metadata.hierarchy.paragraph = para ∧ c.metadata.hierarchy.article = article_no ∧
        c.metadata.split_strategy = subStrategy para := by
  intro items
  induction items with
  | nil =>
    intro i cs h
    simp only [buildSubChunksFine, Option.some.injEq] at h
    subst h
    simp
  | cons item rest ih =>
    intro i cs h
    simp only [buildSubChunksFine] at h
    cases hcit : format_citation_fine ⟨article_no, para, some (i + 1)⟩ with
    | none => rw [hcit] at h; simp at h
    | some cit =>
      rw [hcit] at h
      cases htl : buildSubChunksFine parent article_no base para pre rest (i + 1) with
      | none => rw [htl] at h; simp at h
      | some tail =>
        rw [htl] at h
        simp only [Option.pure_def, Option.bind_eq_bind, Option.some_bind, Option.some.injEq] at h
        subst h
        obtain ⟨ih1, ih2, ih3, ih4⟩ := ih (i + 1) tail htl
        refine ⟨?_, ?_, ?_, ?_⟩
        · rw [List.map_cons, ih1]
          simp only [List.length_cons, List.range_succ_eq_map, List.map_cons, List.map_map]
          refine congrArg₂ _ ?_ ?_
          · cases para with
            | none => rfl
            | some p => cases p with
              | zero => rfl
              | succ p => rfl
          · refine map_range_congr (fun j _ => ?_)
            have h2 : i + 1 + j + 1 = i + (j + 1) + 1 := by omega
            simp [Function.comp, h2]
        · rw [List.map_cons, ih2, List.map_cons]
        · rw [List.map_cons, ih3]
          simp only [List.length_cons, List.range_succ_eq_map, List.map_cons, List.map_map]
          refine congrArg₂ _ (by simp) ?_
          refine map_range_congr (fun j _ => ?_)
          have h2 : i + 1 + j + 1 = i + (j + 1) + 1 := by omega
          simp [Function.comp, h2]
        · intro c hc
          rcases List.mem_cons.1 hc with rfl | hc
          · refine ⟨rfl, rfl, rfl, rfl, ?_⟩
            cases para with
            | none => rfl
            | some p => cases p with
              | zero => rfl
              | succ p => rfl
          · exact ih4 c hc

theorem subItemsAux_length (cs : List Char) : ∀ ms, (subItemsAux cs ms).length = ms.length := by
  intro ms
  induction ms with
  | nil => rfl
  | cons m rest ih =>
    obtain ⟨s, e⟩ := m
    simp [subItemsAux, ih]

theorem processSubs_ids (text : List Char) (parent article_no : String) (base : ChunkMetadataFine)
    (para : Option Nat) (cs : List LawChunkFine)
    (h : process_subparagraphs_fine text parent article_no base para = some cs) :
    cs.map (fun c => c.chunk_id) = [mkIdStr parent para none] ∨
    cs.map (fun c => c.chunk_id)
      = (List.range (findSub text).length).map (fun j => mkIdStr parent para (some (j + 1))) := by
  cases hms : findSub text with
  | nil =>
    left
    simp only [process_subparagraphs_fine, hms] at h
    cases hcit : format_citation_fine (atomHier article_no para) with
    | none => rw [hcit] at h; simp at h
    | some cit =>
      rw [hcit] at h
      simp only [Option.pure_def, Option.bind_eq_bind, Option.some_bind, Option.some.injEq] at h
      subst h
      simp
  | cons m rest =>
    right
    obtain ⟨s, e⟩ := m
    simp only [process_subparagraphs_fine, hms] at h
    obtain ⟨h1, -, -, -⟩ := buildSub_spec parent article_no base para
      (pyStrip (text.take s)) (subItemsAux text ((s, e) :: rest)) 0 cs h
    rw [h1, subItemsAux_length]
    exact map_range_congr (fun j _ => by norm_num)

theorem processSubs_mem_id (text : List Char) (parent article_no : String)
    (base : ChunkMetadataFine) (para : Option Nat) (cs : List LawChunkFine)
    (h : process_subparagraphs_fine text parent article_no base para = some cs)
    (c : LawChunkFine) (hc : c ∈ cs) :
    ∃ s?, c.chunk_id = mkIdStr parent para s? := by
  have hmem : c.chunk_id ∈ cs.map (fun c => c.chunk_id) := List.mem_map_of_mem _ hc
  rcases processSubs_ids text parent article_no base para cs h with h1 | h1
  · rw [h1] at hmem
    simp at hmem
    exact ⟨none, hmem⟩
  · rw [h1] at hmem
    simp at hmem
    obtain ⟨j, -, hj⟩ := hmem
    exact ⟨some (j + 1), hj.symm⟩

theorem processSubs_pairwise (text : List Char) (parent article_no : String)
    (base : ChunkMetadataFine) (para : Option Nat) (cs : List LawChunkFine)
    (h : process_subparagraphs_fine text parent article_no base para = some cs) :
    (cs.map (fun c => c.chunk_id)).Pairwise (· ≠ ·) := by
  rcases processSubs_ids text parent article_no base para cs h with h1 | h1 <;> rw [h1]
  · simp
  · rw [List.pairwise_map]
    refine (List.pairwise_lt_range _).imp ?_
    intro a b hab
    exact mkIdStr_sub_ne parent para (by omega)

theorem processSubs_parent (text : List Char) (parent article_no : String)
    (base : ChunkMetadataFine) (para : Option Nat) (cs : List LawChunkFine)
    (h : process_subparagraphs_fine text parent article_no base para = some cs) :
    ∀ c ∈ cs, c.parent_id = parent := by
  cases hms : findSub text with
  | nil =>
    simp only [process_subparagraphs_fine, hms] at h
    cases hcit : format_citation_fine (atomHier article_no para) with
    | none => rw [hcit] at h; simp at h
    | some cit =>
      rw [hcit] at h
      simp only [Option.pure_def, Option.bind_eq_bind, Option.some_bind, Option.some.injEq] at h
      subst h
      simp
  | cons m rest =>
    obtain ⟨s, e⟩ := m
    simp only [process_subparagraphs_fine, hms] at h
    obtain ⟨-, -, -, h4⟩ := buildSub_spec parent article_no base para
      (pyStrip (text.take s)) (subItemsAux text ((s, e) :: rest)) 0 cs h
    exact fun c hc => (h4 c hc).1

theorem buildGroups_mem (parent article_no : String) (base : ChunkMetadataFine) :
    ∀ (ps : List (Nat × List Char × Nat × Nat)) (cs : List LawChunkFine),
      buildParaGroupsFine parent article_no base ps = some cs →
      ∀ c ∈ cs, ∃ v s?, v ∈ ps.map (fun r => r.1) ∧
        c.chunk_id = mkIdStr parent (some v) s? ∧ c.parent_id = parent := by
  intro ps
  induction ps with
  | nil =>
    intro cs h c hc
    simp only [buildParaGroupsFine, Option.some.injEq] at h
    subst h
    simp at hc
  | cons r rest ih =>
    obtain ⟨v, ptext, s0, e0⟩ := r
    intro cs h c hc
    simp only [buildParaGroupsFine] at h
    cases hg : process_subparagraphs_fine ptext parent article_no base (some v) with
    | none => rw [hg] at h; simp at h
    | some g =>
      rw [hg] at h
      cases ht : buildParaGroupsFine parent article_no base rest with
      | none => rw [ht] at h; simp at h
      | some t =>
        rw [ht] at h
        simp only [Option.pure_def, Option.bind_eq_bind, Option.some_bind, Option.some.injEq] at h
        subst h
        rcases List.mem_append.1 hc with hc | hc
        · obtain ⟨s?, hid⟩ := processSubs_mem_id ptext parent article_no base (some v) g hg c hc
          exact ⟨v, s?, by simp, hid, processSubs_parent ptext parent article_no base (some v) g hg c hc⟩
        · obtain ⟨w, s?, hw, hid, hp⟩ := ih t ht c hc
          exact ⟨w, s?, by simp; right; simpa using hw, hid, hp⟩

theorem buildGroups_pairwise (parent article_no : String) (base : ChunkMetadataFine) :
    ∀ (ps : List (Nat × List Char × Nat × Nat)) (cs : List LawChunkFine),
      buildParaGroupsFine parent article_no base ps = some cs →
      (ps.map (fun r => r.1)).Pairwise (· ≠ ·) →
      (cs.map (fun c => c.chunk_id)).Pairwise (· ≠ ·) := by
  intro ps
  induction ps with
  | nil =>
    intro cs h _
    simp only [buildParaGroupsFine, Option.some.injEq] at h
    subst h
    simp
  | cons r rest ih =>
    obtain ⟨v, ptext, s0, e0⟩ := r
    intro cs h hdist
    simp only [buildParaGroupsFine] at h
    cases hg : process_subparagraphs_fine ptext parent article_no base (some v) with
    | none => rw [hg] at h; simp at h
    | some g =>
      rw [hg] at h
      cases ht : buildParaGroupsFine parent article_no base rest with
      | none => rw [ht] at h; simp at h
      | some t =>
        rw [ht] at h
        simp only [Option.pure_def, Option.bind_eq_bind, Option.some_bind, Option.some.injEq] at h
        subst h
        rw [List.map_append, List.pairwise_append]
        simp only [List.map_cons, List.pairwise_cons] at hdist
        obtain ⟨hv, htail⟩ := hdist
        refine ⟨processSubs_pairwise ptext parent article_no base (some v) g hg,
          ih t ht htail, ?_⟩
        intro x hx y hy
        obtain ⟨cx, hcx, rfl⟩ := List.mem_map.1 hx
        obtain ⟨cy, hcy, rfl⟩ := List.mem_map.1 hy
        obtain ⟨sx, hidx⟩ := processSubs_mem_id ptext parent article_no base (some v) g hg cx hcx
        obtain ⟨w, sy, hw, hidy, -⟩ := buildGroups_mem parent article_no base rest t ht cy hcy
        rw [hidx, hidy]
        exact mkIdStr_group_ne parent (hv w (by simpa using hw)) sx sy

theorem split_recursive_pairwise (text : List Char) (parent article_no : String)
    (base : ChunkMetadataFine) (cs : List LawChunkFine)
    (h : split_recursive_fine text parent article_no base = some cs)
    (hdist : ((split_by_paragraph text).map (fun r => r.1)).Pairwise (· ≠ ·)) :
    (cs.map (fun c => c.chunk_id)).Pairwise (· ≠ ·) := by
  cases hps : split_by_paragraph text with
  | nil =>
    simp only [split_recursive_fine, hps] at h
    exact processSubs_pairwise text parent article_no base none cs h
  | cons p ps =>
    simp only [split_recursive_fine, hps] at h
    rw [hps] at hdist
    exact buildGroups_pairwise parent article_no base (p :: ps) cs h hdist

theorem coarseId_ne (parent : String) {v w : Nat} (h : v ≠ w) :
    parent ++ "_P" ++ natStr v ≠ parent ++ "_P" ++ natStr w := by
  intro he
  apply h
  apply natStr_inj (m := v) (n := w)
  apply str_ext
  have hd := congrArg String.data he
  simp only [strApp_data] at hd
  exact List.append_cancel_left hd

theorem buildCoarse_spec (a : RawLawArticle) :
    ∀ (ps : List (Nat × List Char × Nat × Nat)) (cs : List LawChunkCoarse),
      buildCoarseChunks a ps = some cs →
      cs.map (fun c => c.chunk_id) = ps.map (fun r => a.id ++ "_P" ++ natStr r.1) ∧
      cs.map (fun c => c.metadata.hierarchy.paragraph) = ps.map (fun r => some r.1) ∧
      cs.map (fun c => c.text) = ps.map (fun r => String.mk r.2.1) ∧
      ∀ c ∈ cs, c.parent_id = a.id ∧ c.metadata.split_strategy = SplitStrategyEnum.numeric ∧
        c.metadata.is_expanded = false := by
  intro ps
  induction ps with
  | nil =>
    intro cs h
    simp only [buildCoarseChunks, Option.some.injEq] at h
    subst h
    simp
  | cons r rest ih =>
    obtain ⟨v, ptext, s0, e0⟩ := r
    intro cs h
    simp only [buildCoarseChunks] at h
    cases hcit : format_citation_coarse ⟨a.article_no, some v⟩ with
    | none => rw [hcit] at h; simp at h
    | some cit =>
      rw [hcit] at h
      cases ht : buildCoarseChunks a rest with
      | none => rw [ht] at h; simp at h
      | some t =>
        rw [ht] at h
        simp only [Option.pure_def, Option.bind_eq_bind, Option.some_bind, Option.some.injEq] at h
        subst h
        obtain ⟨ih1, ih2, ih3, ih4⟩ := ih t ht
        refine ⟨?_, ?_, ?_, ?_⟩
        · simp [ih1]
        · simp [ih2]
        · simp [ih3]
        · intro c hc
          rcases List.mem_cons.1 hc with rfl | hc
          · exact ⟨rfl, rfl, rfl⟩
          · exact ih4 c hc

theorem split_coarse_pairwise (a : RawLawArticle) (cs : List LawChunkCoarse)
    (h : split_coarse a = some cs)
    (hdist : ((split_by_paragraph a.content.data).map (fun r => r.1)).Pairwise (· ≠ ·)) :
    (cs.map (fun c => c.chunk_id)).Pairwise (· ≠ ·) := by
  cases hps : split_by_paragraph a.content.data with
  | nil =>
    simp only [split_coarse, hps] at h
    cases hcit : format_citation_coarse ⟨a.article_no, none⟩ with
    | none => rw [hcit] at h; simp at h
    | some cit =>
      rw [hcit] at h
      simp only [Option.pure_def, Option.bind_eq_bind, Option.some_bind, Option.some.injEq] at h
      subst h
      simp
  | cons p ps =>
    simp only [split_coarse, hps] at h
    rw [hps] at hdist
    obtain ⟨h1, -, -, -⟩ := buildCoarse_spec a (p :: ps) cs h
    rw [h1, List.pairwise_map]
    rw [List.pairwise_map] at hdist
    exact hdist.imp (fun hne => coarseId_ne a.id hne)

/-- Claim C1 (amended): for every RawLawArticle under either policy, whenever
parse_article returns a chunk list, the chunk_ids are pairwise distinct
provided the paragraph numbers parsed by Pass A are pairwise distinct; when
the parenthesised digits repeat a value the ids collide (the ids are keyed on
the parsed number, not the encounter ordinal), as the counterexample shows. -/
theorem chunk_ids_pairwise_distinct (strategy : String) (a : RawLawArticle)
    (cs : List LawChunk) (h : parse_article strategy a = some cs)
    (hdist : ((split_by_paragraph a.content.data).map (fun r => r.1)).Pairwise (· ≠ ·)) :
    (cs.map LawChunk.chunk_id).Pairwise (· ≠ ·) := by
  unfold parse_article at h
  by_cases hs : strategy = "PARENT_CHILD_COARSE"
  · rw [if_pos hs] at h
    cases hsc : split_coarse a with
    | none => rw [hsc] at h; simp at h
    | some l =>
      rw [hsc] at h
      simp only [Option.map_some', Option.some.injEq] at h
      subst h
      have hp := split_coarse_pairwise a l hsc hdist
      simpa [List.map_map, Function.comp, LawChunk.chunk_id] using hp
  · rw [if_neg hs] at h
    cases hsf : split_fine a with
    | none => rw [hsf] at h; simp at h
    | some l =>
      rw [hsf] at h
      simp only [Option.map_some', Option.some.injEq] at h
      subst h
      simp only [split_fine] at hsf
      have hp := split_recursive_pairwise a.content.data a.id a.article_no _ l hsf hdist
      simpa [List.map_map, Function.comp, LawChunk.chunk_id] using hp

/-- Witness for C1 at the concrete article artP2 under the Coarse policy. -/
theorem chunk_ids_pairwise_distinct_witness :
    (([LawChunk.coarse ⟨"A_P2", "A", "(2) foo",
        ⟨"http://x", SplitStrategyEnum.numeric, false, "勞動基準法第三條第二項",
         ⟨"3", some 2⟩, none, none, "3"⟩⟩] : List LawChunk).map LawChunk.chunk_id).Pairwise (· ≠ ·) :=
  chunk_ids_pairwise_distinct "PARENT_CHILD_COARSE" artP2 _ (by decide) (by decide)

theorem splitByParagraphAux_fst (cs : List Char) :
    ∀ ms, (splitByParagraphAux cs ms).map (fun r => r.1) = ms.map (fun m => m.1) := by
  intro ms
  induction ms with
  | nil => rfl
  | cons m rest ih =>
    obtain ⟨v, s, e⟩ := m
    simp [splitByParagraphAux, ih]

theorem processSubs_hier (text : List Char) (parent article_no : String)
    (base : ChunkMetadataFine) (para : Option Nat) (cs : List LawChunkFine)
    (h : process_subparagraphs_fine text parent article_no base para = some cs) :
    ∀ c ∈ cs, c.metadata.hierarchy.paragraph = para ∨ c.metadata.hierarchy.paragraph = none := by
  cases hms : findSub text with
  | nil =>
    simp only [process_subparagraphs_fine, hms] at h
    cases hcit : format_citation_fine (atomHier article_no para) with
    | none => rw [hcit] at h; simp at h
    | some cit =>
      rw [hcit] at h
      simp only [Option.pure_def, Option.bind_eq_bind, Option.some_bind, Option.some.injEq] at h
      subst h
      intro c hc
      simp at hc
      subst hc
      cases para with
      | none => right; rfl
      | some p =>
        cases p with
        | zero => right; rfl
        | succ p => left; rfl
  | cons m rest =>
    obtain ⟨s, e⟩ := m
    simp only [process_subparagraphs_fine, hms] at h
    obtain ⟨-, -, -, h4⟩ := buildSub_spec parent article_no base para
      (pyStrip (text.take s)) (subItemsAux text ((s, e) :: rest)) 0 cs h
    exact fun c hc => Or.inl (h4 c hc).2.2.1

theorem buildGroups_hier (parent article_no : String) (base : ChunkMetadataFine) :
    ∀ (ps : List (Nat × List Char × Nat × Nat)) (cs : List LawChunkFine),
      buildParaGroupsFine parent article_no base ps = some cs →
      ∀ c ∈ cs, c.metadata.hierarchy.paragraph = none ∨
        c.metadata.hierarchy.paragraph ∈ ps.map (fun r => some r.1) := by
  intro ps
  induction ps with
  | nil =>
    intro cs h c hc
    simp only [buildParaGroupsFine, Option.some.injEq] at h
    subst h
    simp at hc
  | cons r rest ih =>
    obtain ⟨v, ptext, s0, e0⟩ := r
    intro cs h c hc
    simp only [buildParaGroupsFine] at h
    cases hg : process_subparagraphs_fine ptext parent article_no base (some v) with
    | none => rw [hg] at h; simp at h
    | some g =>
      rw [hg] at h
      cases ht : buildParaGroupsFine parent article_no base rest with
      | none => rw [ht] at h; simp at h
      | some t =>
        rw [ht] at h
        simp only [Option.pure_def, Option.bind_eq_bind, Option.some_bind, Option.some.injEq] at h
        subst h
        rcases List.mem_append.1 hc with hc | hc
        · rcases processSubs_hier ptext parent article_no base (some v) g hg c hc with h1 | h1
          · right; rw [h1]; simp
          · left; exact h1
        · rcases ih t ht c hc with h1 | h1
          · left; exact h1
          · right; simp only [List.map_cons, List.mem_cons]; right; exact h1

/-- Claim C2 (amended): when Pass A finds k ≥ 1 matches, the paragraph value
stored with each block and used for addressing is the number parsed from the
digits inside that match's parentheses, not the encounter ordinal i + 1: under
the Coarse policy the i-th chunk's id is parent_P{declared value of match i}
and its hierarchy stores that declared value, and under the Fine policy every
stored hierarchy.paragraph is one of the declared values handed to Pass B. -/
theorem paragraph_addressing_declared (a : RawLawArticle) (cs : List LawChunkCoarse)
    (h : split_coarse a = some cs) (hne : split_by_paragraph a.content.data ≠ []) :
    (split_by_paragraph a.content.data).map (fun r => r.1)
      = (findPara a.content.data).map (fun m => m.1) ∧
    cs.map (fun c => c.chunk_id)
      = (split_by_paragraph a.content.data).map (fun r => a.id ++ "_P" ++ natStr r.1) ∧
    cs.map (fun c => c.metadata.hierarchy.paragraph)
      = (split_by_paragraph a.content.data).map (fun r => some r.1) ∧
    ∀ (fs : List LawChunkFine), split_fine a = some fs → ∀ c ∈ fs,
      c.metadata.hierarchy.paragraph = none ∨
      c.metadata.hierarchy.paragraph ∈ (split_by_paragraph a.content.data).map (fun r => some r.1) := by
  refine ⟨splitByParagraphAux_fst a.content.data (findPara a.content.data), ?_⟩
  cases hps : split_by_paragraph a.content.data with
  | nil => exact absurd hps hne
  | cons p ps =>
    simp only [split_coarse, hps] at h
    obtain ⟨h1, h2, -, -⟩ := buildCoarse_spec a (p :: ps) cs h
    refine ⟨h1, h2, ?_⟩
    intro fs hfs c hc
    simp only [split_fine] at hfs
    simp only [split_recursive_fine, hps] at hfs
    exact buildGroups_hier a.id a.article_no _ (p :: ps) fs hfs c hc

/-- Witness for C2 at the concrete article artDup under the Coarse policy. -/
theorem paragraph_addressing_declared_witness :
    (([⟨"A_P1", "A", "(1) a",
        ⟨"http://x", SplitStrategyEnum.numeric, false, "勞動基準法第三條第一項",
         ⟨"3", some 1⟩, none, none, "3"⟩⟩,
       ⟨"A_P1", "A", "(1) b",
        ⟨"http://x", SplitStrategyEnum.numeric, false, "勞動基準法第三條第一項",
         ⟨"3", some 1⟩, none, none, "3"⟩⟩] : List LawChunkCoarse).map (fun c => c.chunk_id))
      = (split_by_paragraph artDup.content.data).map (fun r => artDup.id ++ "_P" ++ natStr r.1) :=
  (paragraph_addressing_declared artDup _ (by decide) (by decide)).2.1

theorem split_recursive_parent (text : List Char) (parent article_no : String)
    (base : ChunkMetadataFine) (cs : List LawChunkFine)
    (h : split_recursive_fine text parent article_no base = some cs) :
    ∀ c ∈ cs, c.parent_id = parent := by
  cases hps : split_by_paragraph text with
  | nil =>
    simp only [split_recursive_fine, hps] at h
    exact processSubs_parent text parent article_no base none cs h
  | cons p ps =>
    simp only [split_recursive_fine, hps] at h
    intro c hc
    obtain ⟨-, -, -, -, hp⟩ := buildGroups_mem parent article_no base (p :: ps) cs h c hc
    exact hp

theorem split_coarse_parent (a : RawLawArticle) (cs : List LawChunkCoarse)
    (h : split_coarse a = some cs) : ∀ c ∈ cs, c.parent_id = a.id := by
  cases hps : split_by_paragraph a.content.data with
  | nil =>
    simp only [split_coarse, hps] at h
    cases hcit : format_citation_coarse ⟨a.article_no, none⟩ with
    | none => rw [hcit] at h; simp at h
    | some cit =>
      rw [hcit] at h
      simp only [Option.pure_def, Option.bind_eq_bind, Option.some_bind, Option.some.injEq] at h
      subst h
      simp
  | cons p ps =>
    simp only [split_coarse, hps] at h
    obtain ⟨-, -, -, h4⟩ := buildCoarse_spec a (p :: ps) cs h
    exact fun c hc => (h4 c hc).1

/-- Claim C9: under either policy, every chunk parse_article returns carries
parent_id equal to the originating article's id — for atomic, paragraph and
subparagraph chunks alike. -/
theorem parent_id_invariant (strategy : String) (a : RawLawArticle)
    (cs : List LawChunk) (h : parse_article strategy a = some cs) :
    ∀ c ∈ cs, c.parent_id = a.id := by
  unfold parse_article at h
  by_cases hs : strategy = "PARENT_CHILD_COARSE"
  · rw [if_pos hs] at h
    cases hsc : split_coarse a with
    | none => rw [hsc] at h; simp at h
    | some l =>
      rw [hsc] at h
      simp only [Option.map_some', Option.some.injEq] at h
      subst h
      intro c hc
      obtain ⟨c0, hc0, rfl⟩ := List.mem_map.1 hc
      exact split_coarse_parent a l hsc c0 hc0
  · rw [if_neg hs] at h
    cases hsf : split_fine a with
    | none => rw [hsf] at h; simp at h
    | some l =>
      rw [hsf] at h
      simp only [Option.map_some', Option.some.injEq] at h
      subst h
      intro c hc
      obtain ⟨c0, hc0, rfl⟩ := List.mem_map.1 hc
      simp only [split_fine] at hsf
      exact split_recursive_parent a.content.data a.id a.article_no _ l hsf c0 hc0

/-- Witness for C9 at artNested under the Fine policy, for the nested
subparagraph chunk LSA-79_P1_S1. -/
theorem parent_id_invariant_witness :
    LawChunk.parent_id (LawChunk.fine ⟨"LSA-79_P1_S1", "LSA-79", "(1) 前文：一、甲",
      ⟨"http://x", SplitStrategyEnum.numeric_contextual, true, "勞動基準法第七十九條第一項第一款",
       ⟨"79", some 1, some 1⟩, none, none, "79"⟩⟩) = artNested.id :=
  parent_id_invariant "PARENT_CHILD_FINE" artNested
    [LawChunk.fine ⟨"LSA-79_P1_S1", "LSA-79", "(1) 前文：一、甲",
      ⟨"http://x", SplitStrategyEnum.numeric_contextual, true, "勞動基準法第七十九條第一項第一款",
       ⟨"79", some 1, some 1⟩, none, none, "79"⟩⟩,
     LawChunk.fine ⟨"LSA-79_P1_S2", "LSA-79", "(1) 前文：二、乙",
      ⟨"http://x", SplitStrategyEnum.numeric_contextual, true, "勞動基準法第七十九條第一項第二款",
       ⟨"79", some 1, some 2⟩, none, none, "79"⟩⟩,
     LawChunk.fine ⟨"LSA-79_P2", "LSA-79", "(2) 次段",
      ⟨"http://x", SplitStrategyEnum.numeric, false, "勞動基準法第七十九條第二項",
       ⟨"79", some 2, none⟩, none, none, "79"⟩⟩]
    (by decide) _ (by decide)

/-- Claim C7: under the Coarse policy every emitted chunk has is_expanded
false and split_strategy numeric or atomic (never contextual or
numeric_contextual): one numeric chunk per Pass-A paragraph, or a single
atomic chunk when Pass A finds nothing.  The Coarse hierarchy type
(HierarchyCoarse) structurally omits the subparagraph field, exactly as the
Pydantic model does. -/
theorem coarse_chunk_invariants (a : RawLawArticle) (cs : List LawChunkCoarse)
    (h : split_coarse a = some cs) :
    (∀ c ∈ cs, c.metadata.is_expanded = false ∧
      (c.metadata.split_strategy = SplitStrategyEnum.numeric ∨
       c.metadata.split_strategy = SplitStrategyEnum.atomic)) ∧
    (split_by_paragraph a.content.data ≠ [] →
      cs.length = (split_by_paragraph a.content.data).length ∧
      ∀ c ∈ cs, c.metadata.split_strategy = SplitStrategyEnum.numeric) ∧
    (split_by_paragraph a.content.data = [] →
      cs.length = 1 ∧ ∀ c ∈ cs, c.metadata.split_strategy = SplitStrategyEnum.atomic) := by
  cases hps : split_by_paragraph a.content.data with
  | nil =>
    simp only [split_coarse, hps] at h
    cases hcit : format_citation_coarse ⟨a.article_no, none⟩ with
    | none => rw [hcit] at h; simp at h
    | some cit =>
      rw [hcit] at h
      simp only [Option.pure_def, Option.bind_eq_bind, Option.some_bind, Option.some.injEq] at h
      subst h
      refine ⟨?_, fun hne => absurd rfl hne, fun _ => ⟨rfl, ?_⟩⟩
      · intro c hc
        simp at hc
        subst hc
        exact ⟨rfl, Or.inr rfl⟩
      · intro c hc
        simp at hc
        subst hc
        rfl
  | cons p ps =>
    simp only [split_coarse, hps] at h
    obtain ⟨h1, -, -, h4⟩ := buildCoarse_spec a (p :: ps) cs h
    have hlen : cs.length = (p :: ps).length := by
      have := congrArg List.length h1
      simpa using this
    refine ⟨fun c hc => ⟨(h4 c hc).2.2, Or.inl (h4 c hc).2.1⟩,
      fun _ => ⟨hlen, fun c hc => (h4 c hc).2.1⟩,
      fun hcontra => by simp at hcontra⟩

/-- Witness for C7 at artDup (two numeric paragraph chunks). -/
theorem coarse_chunk_invariants_witness :
    (⟨"A_P1", "A", "(1) a",
      ⟨"http://x", SplitStrategyEnum.numeric, false, "勞動基準法第三條第一項",
       ⟨"3", some 1⟩, none, none, "3"⟩⟩ : LawChunkCoarse).metadata.is_expanded = false :=
  ((coarse_chunk_invariants artDup
    [⟨"A_P1", "A", "(1) a",
      ⟨"http://x", SplitStrategyEnum.numeric, false, "勞動基準法第三條第一項",
       ⟨"3", some 1⟩, none, none, "3"⟩⟩,
     ⟨"A_P1", "A", "(1) b",
      ⟨"http://x", SplitStrategyEnum.numeric, false, "勞動基準法第三條第一項",
       ⟨"3", some 1⟩, none, none, "3"⟩⟩]
    (by decide)).1 _ (by decide)).1

theorem citation_none_agree (art : String) :
    format_citation_fine ⟨art, none, none⟩ = format_citation_coarse ⟨art, none⟩ := rfl

/-- Claim C8: an article with empty content degenerates, under either policy,
to exactly one chunk with empty text, split_strategy atomic, chunk_id equal
to the article's id, and no paragraph or subparagraph address, rather than
raising — provided the article-number part of the citation formats (the only
exception source on this path, which depends solely on article_no). -/
theorem empty_content_atomic_chunk (strategy : String) (a : RawLawArticle)
    (h1 : a.content = "")
    (h2 : (format_citation_fine ⟨a.article_no, none, none⟩).isSome = true) :
    (parse_article strategy a).map (fun l => l.map LawChunk.chunk_id) = some [a.id] ∧
    (parse_article strategy a).map (fun l => l.map LawChunk.text) = some [""] ∧
    (parse_article strategy a).map (fun l => l.map LawChunk.split_strategy)
      = some [SplitStrategyEnum.atomic] ∧
    (parse_article strategy a).map (fun l => l.map LawChunk.paragraphOf) = some [none] ∧
    (parse_article strategy a).map (fun l => l.map LawChunk.subparagraphOf) = some [none] := by
  have hd : a.content.data = [] := by rw [h1]
  have hps : split_by_paragraph a.content.data = [] := by rw [hd]; rfl
  have hfs : findSub a.content.data = [] := by rw [hd]; rfl
  obtain ⟨cit, hcitF⟩ := Option.isSome_iff_exists.1 h2
  have hcitC : format_citation_coarse ⟨a.article_no, none⟩ = some cit := by
    rw [← citation_none_agree]; exact hcitF
  unfold parse_article
  by_cases hs : strategy = "PARENT_CHILD_COARSE"
  · rw [if_pos hs]
    have hsc : split_coarse a = some [⟨a.id, a.id, ⟨pyStrip a.content.data⟩,
        ⟨a.url, SplitStrategyEnum.atomic, false, cit, ⟨a.article_no, none⟩,
         a.chapter_no, a.chapter_name, a.article_no⟩⟩] := by
      simp only [split_coarse, hps, hcitC, Option.pure_def, Option.bind_eq_bind, Option.some_bind]
    rw [hsc]
    have htext : (⟨pyStrip a.content.data⟩ : String) = "" := by rw [hd]; rfl
    simp [LawChunk.chunk_id, LawChunk.text, LawChunk.split_strategy,
      LawChunk.paragraphOf, LawChunk.subparagraphOf, htext]
  · rw [if_neg hs]
    have hsr : split_fine a = some [⟨a.id, a.id, ⟨pyStrip a.content.data⟩,
        ⟨a.url, SplitStrategyEnum.atomic, false, cit, ⟨a.article_no, none, none⟩,
         a.chapter_no, a.chapter_name, a.article_no⟩⟩] := by
      simp only [split_fine, split_recursive_fine, hps, process_subparagraphs_fine, hfs]
      simp only [atomHier, mkIdStr, pTag, atomStrategy]
      simp only [hcitF, Option.pure_def, Option.bind_eq_bind, Option.some_bind]
    rw [hsr]
    have htext : (⟨pyStrip a.content.data⟩ : String) = "" := by rw [hd]; rfl
    simp [LawChunk.chunk_id, LawChunk.text, LawChunk.split_strategy,
      LawChunk.paragraphOf, LawChunk.subparagraphOf, htext]

/-- Witness for C8 at artEmpty under the Fine policy. -/
theorem empty_content_atomic_chunk_witness :
    (parse_article "PARENT_CHILD_FINE" artEmpty).map (fun l => l.map LawChunk.chunk_id)
      = some [artEmpty.id] ∧
    (parse_article "PARENT_CHILD_FINE" artEmpty).map (fun l => l.map LawChunk.text) = some [""] ∧
    (parse_article "PARENT_CHILD_FINE" artEmpty).map (fun l => l.map LawChunk.split_strategy)
      = some [SplitStrategyEnum.atomic] ∧
    (parse_article "PARENT_CHILD_FINE" artEmpty).map (fun l => l.map LawChunk.paragraphOf)
      = some [none] ∧
    (parse_article "PARENT_CHILD_FINE" artEmpty).map (fun l => l.map LawChunk.subparagraphOf)
      = some [none] :=
  empty_content_atomic_chunk "PARENT_CHILD_FINE" artEmpty rfl (by decide)

/-- Claim C6 (amended): when Pass B finds k ≥ 1 markers in a sub-problem
text, exactly k chunks are emitted; the i-th chunk's text is the shared
preamble (text strictly before the first match, stripped) followed by the
stripped span from match i's start to the next match's start or end of text;
its subparagraph address is i + 1 regardless of the numeral's value;
is_expanded is true; and split_strategy is numeric_contextual when the
paragraph is set (to a nonzero value — a paragraph set to 0 behaves like an
absent one, see the counterexample) and contextual otherwise. -/
theorem subparagraph_chunk_emission (text : List Char) (parent article_no : String)
    (base : ChunkMetadataFine) (para : Option Nat)
    (hpara : para = none ∨ ∃ v, para = some (v + 1))
    (cs : List LawChunkFine)
    (h : process_subparagraphs_fine text parent article_no base para = some cs)
    (hne : findSub text ≠ []) :
    cs.length = (findSub text).length ∧
    cs.map (fun c => c.text)
      = (subItemsAux text (findSub text)).map (fun it => String.mk (subPreamble text ++ it)) ∧
    cs.map (fun c => c.metadata.hierarchy.subparagraph)
      = (List.range (findSub text).length).map (fun j => some (j + 1)) ∧
    ∀ c ∈ cs, c.metadata.is_expanded = true ∧
      c.metadata.split_strategy
        = (if para.isSome then SplitStrategyEnum.numeric_contextual
           else SplitStrategyEnum.contextual) := by
  cases hms : findSub text with
  | nil => exact absurd hms hne
  | cons m rest =>
    obtain ⟨s, e⟩ := m
    simp only [process_subparagraphs_fine, hms] at h
    obtain ⟨h1, h2, h3, h4⟩ := buildSub_spec parent article_no base para
      (pyStrip (text.take s)) (subItemsAux text ((s, e) :: rest)) 0 cs h
    have hlen : cs.length = ((s, e) :: rest).length := by
      have := congrArg List.length h2
      simpa [subItemsAux_length] using this
    refine ⟨hlen, ?_, ?_, ?_⟩
    · rw [h2]
      simp only [subPreamble, hms]
    · rw [h3, subItemsAux_length]
      exact map_range_congr (fun j _ => by norm_num)
    · intro c hc
      obtain ⟨-, hexp, -, -, hstrat⟩ := h4 c hc
      refine ⟨hexp, ?_⟩
      rw [hstrat]
      rcases hpara with rfl | ⟨v, rfl⟩
      · rfl
      · rfl

/-- Witness for C6 on the first paragraph block of artNested, with
paragraph 1 handed down. -/
theorem subparagraph_chunk_emission_witness :
    (([⟨"LSA-79_P1_S1", "LSA-79", "(1) 前文：一、甲",
        ⟨"http://x", SplitStrategyEnum.numeric_contextual, true, "勞動基準法第七十九條第一項第一款",
         ⟨"79", some 1, some 1⟩, none, none, "79"⟩⟩,
       ⟨"LSA-79_P1_S2", "LSA-79", "(1) 前文：二、乙",
        ⟨"http://x", SplitStrategyEnum.numeric_contextual, true, "勞動基準法第七十九條第一項第二款",
         ⟨"79", some 1, some 2⟩, none, none, "79"⟩⟩] : List LawChunkFine).map (fun c => c.text))
      = (subItemsAux "(1) 前文：\n一、甲\n二、乙".data (findSub "(1) 前文：\n一、甲\n二、乙".data)).map
          (fun it => String.mk (subPreamble "(1) 前文：\n一、甲\n二、乙".data ++ it)) :=
  (subparagraph_chunk_emission "(1) 前文：\n一、甲\n二、乙".data "LSA-79" "79"
    ⟨"http://x", SplitStrategyEnum.atomic, false, "", ⟨"79", none, none⟩, none, none, "79"⟩
    (some 1) (Or.inr ⟨0, rfl⟩) _ (by decide) (by decide)).2.1

theorem str_append_assoc (a b c : String) : a ++ b ++ c = a ++ (b ++ c) :=
  str_ext (by simp [strApp_data])

theorem str_append_empty (a : String) : a ++ "" = a :=
  str_ext (by rw [strApp_data, show ("" : String).data = [] from rfl, List.append_nil])

theorem digit_not_ws (c : Char) (hc : isPyDigit c = true) : isWs c = false := by
  cases hw : isWs c
  · rfl
  · exfalso
    have h6 : c = ' ' ∨ c = '\t' ∨ c = '\n' ∨ c = '\r' ∨ c = '\x0b' ∨ c = '\x0c' := by
      simpa [isWs, or_assoc] using hw
    rcases h6 with rfl | rfl | rfl | rfl | rfl | rfl <;> exact absurd hc (by decide)

theorem digit_ne_dash (c : Char) (hc : isPyDigit c = true) : c ≠ '-' := by
  intro e
  rw [e] at hc
  exact absurd hc (by decide)

theorem ws_free_dropWhile {l : List Char} (h : ∀ c ∈ l, isWs c = false) :
    l.dropWhile isWs = l := by
  cases l with
  | nil => rfl
  | cons c rest => simp [List.dropWhile_cons, h c (List.mem_cons_self c rest)]

theorem pyStrip_eq_self {l : List Char} (h : ∀ c ∈ l, isWs c = false) : pyStrip l = l := by
  unfold pyStrip
  rw [ws_free_dropWhile h,
    ws_free_dropWhile (fun c hc => h c (List.mem_reverse.1 hc)), List.reverse_reverse]

theorem pyInt_digits {l : List Char} (hne : l ≠ []) (hdig : ∀ c ∈ l, isPyDigit c = true) :
    pyInt ⟨l⟩ = some ((digitsVal l : Nat) : Int) := by
  have hws : ∀ c ∈ l, isWs c = false := fun c hc => digit_not_ws c (hdig c hc)
  cases l with
  | nil => exact absurd rfl hne
  | cons c rest =>
    have hstrip : pyStrip (c :: rest) = c :: rest := pyStrip_eq_self hws
    have hc := hdig c (List.mem_cons_self c rest)
    unfold pyInt
    rw [show (String.mk (c :: rest)).data = c :: rest from rfl, hstrip, pyIntAux]
    rw [if_neg (by intro e; rw [e] at hc; exact absurd hc (by decide)),
      if_neg (by intro e; rw [e] at hc; exact absurd hc (by decide)),
      if_pos (List.all_eq_true.2 (fun x hx => hdig x hx))]

theorem pyInt_natStr (n : Nat) : pyInt (natStr n) = some (n : Int) := by
  have h := pyInt_digits (l := (natStr n).data)
    (natChars_ne_nil (n + 1) n (by omega)) (fun c hc => natStr_digits n c hc)
  rw [show (⟨(natStr n).data⟩ : String) = natStr n from rfl] at h
  rw [h, show (natStr n).data = natChars (n + 1) n from rfl,
    natChars_val (n + 1) n (by omega)]

theorem pyIsdigit_natStr (n : Nat) : pyIsdigit (natStr n) = true := by
  unfold pyIsdigit
  rw [Bool.and_eq_true]
  constructor
  · cases hl : (natStr n).data with
    | nil => exact absurd hl (natChars_ne_nil (n + 1) n (by omega))
    | cons c rest => rfl
  · exact List.all_eq_true.2 (fun x hx => natStr_digits n x hx)

theorem pyContains_false {l : List Char} {a : Char} (h : ∀ c ∈ l, c ≠ a) :
    pyContains l a = false := by
  simp only [pyContains, List.any_eq_false, beq_iff_eq]
  exact h

theorem pyContains_true {l : List Char} {a : Char} (h : a ∈ l) :
    pyContains l a = true := by
  simp only [pyContains, List.any_eq_true, beq_iff_eq]
  exact ⟨a, h, rfl⟩

theorem natStr_no_dash (n : Nat) : pyContains (natStr n).data '-' = false :=
  pyContains_false (fun c hc => digit_ne_dash c (natStr_digits n c hc))

theorem pySplit_no_sep {l : List Char} (h : ∀ c ∈ l, c ≠ '-') : pySplit '-' l = [l] := by
  induction l with
  | nil => rfl
  | cons c rest ih =>
    have h1 : (c == '-') = false := by
      simp only [beq_eq_false_iff_ne, ne_eq]
      exact h c (List.mem_cons_self c rest)
    rw [pySplit, if_neg (by simp [h1]), ih (fun x hx => h x (List.mem_cons_of_mem c hx))]

theorem pySplit_sep_append {l₁ : List Char} (l₂ : List Char) (h : ∀ c ∈ l₁, c ≠ '-') :
    pySplit '-' (l₁ ++ '-' :: l₂) = l₁ :: pySplit '-' l₂ := by
  induction l₁ with
  | nil => rw [List.nil_append, pySplit, if_pos (by simp)]
  | cons c rest ih =>
    have h1 : (c == '-') = false := by
      simp only [beq_eq_false_iff_ne, ne_eq]
      exact h c (List.mem_cons_self c rest)
    rw [List.cons_append, pySplit, if_neg (by simp [h1]),
      ih (fun x hx => h x (List.mem_cons_of_mem c hx))]

theorem dash_article_data (m s : Nat) :
    (natStr m ++ "-" ++ natStr s).data = (natStr m).data ++ '-' :: (natStr s).data := by
  rw [strApp_data, strApp_data, show ("-" : String).data = ['-'] from rfl]
  simp

theorem citationArtText_dash (m s : Nat) (hm : m ≤ 999) (hs : s ≤ 999) :
    citationArtText (natStr m ++ "-" ++ natStr s)
      = some ("第" ++ specNumeral m ++ "條之" ++ specNumeral s) := by
  have hcont : pyContains (natStr m ++ "-" ++ natStr s).data '-' = true := by
    rw [dash_article_data]
    exact pyContains_true (by simp)
  have hsplit : pySplit '-' (natStr m ++ "-" ++ natStr s).data
      = [(natStr m).data, (natStr s).data] := by
    rw [dash_article_data,
      pySplit_sep_append _ (fun c hc => digit_ne_dash c (natStr_digits m c hc)),
      pySplit_no_sep (fun c hc => digit_ne_dash c (natStr_digits s c hc))]
  unfold citationArtText
  rw [if_pos hcont, hsplit]
  have hm' : pyInt ⟨(natStr m).data⟩ = some (m : Int) := by
    rw [show (⟨(natStr m).data⟩ : String) = natStr m from rfl]
    exact pyInt_natStr m
  have hs' : pyInt ⟨(natStr s).data⟩ = some (s : Int) := by
    rw [show (⟨(natStr s).data⟩ : String) = natStr s from rfl]
    exact pyInt_natStr s
  simp only [hm', hs', Option.pure_def, Option.bind_eq_bind, Option.some_bind,
    convert_agrees_spec m hm, convert_agrees_spec s hs]

theorem citationArtText_digits (n : Nat) (hn : n ≤ 999) :
    citationArtText (natStr n) = some ("第" ++ specNumeral n ++ "條") := by
  unfold citationArtText
  rw [if_neg (by rw [natStr_no_dash]; simp), if_pos (pyIsdigit_natStr n)]
  simp only [pyInt_natStr n, Option.pure_def, Option.bind_eq_bind, Option.some_bind,
    convert_agrees_spec n hn]

theorem citationArtText_verbatim (art : String) (h1 : pyContains art.data '-' = false)
    (h2 : pyIsdigit art = false) : citationArtText art = some ("第" ++ art ++ "條") := by
  unfold citationArtText
  rw [if_neg (by rw [h1]; simp), if_neg (by rw [h2]; simp)]
  rfl

theorem format_citation_fine_eq (h : HierarchyFine) (artText : String)
    (hart : citationArtText h.article = some artText)
    (hp : boundOK h.paragraph) (hs : boundOK h.subparagraph) :
    format_citation_fine h
      = some ("勞動基準法" ++ artText ++ specParaSuffix h.paragraph
          ++ specSubSuffix h.subparagraph) := by
  obtain ⟨art, p?, s?⟩ := h
  simp only at hart hp hs
  have hpc : ∀ p : Nat, p + 1 ≤ 999 →
      convert_to_chinese_numeral ((p : Int) + 1) = some (specNumeral (p + 1)) := by
    intro p hb
    have := convert_agrees_spec (p + 1) hb
    rwa [show (((p + 1 : Nat)) : Int) = (p : Int) + 1 by omega] at this
  cases p? with
  | none =>
    cases s? with
    | none => simp [format_citation_fine, hart, specParaSuffix, specSubSuffix, str_append_empty]
    | some s =>
      cases s with
      | zero => simp [format_citation_fine, hart, specParaSuffix, specSubSuffix, str_append_empty]
      | succ s =>
        have hcs := hpc s hs
        simp [format_citation_fine, hart, hcs, specParaSuffix, specSubSuffix,
          str_append_empty, str_append_assoc]
  | some p =>
    cases p with
    | zero =>
      cases s? with
      | none => simp [format_citation_fine, hart, specParaSuffix, specSubSuffix, str_append_empty]
      | some s =>
        cases s with
        | zero => simp [format_citation_fine, hart, specParaSuffix, specSubSuffix, str_append_empty]
        | succ s =>
          have hcs := hpc s hs
          simp [format_citation_fine, hart, hcs, specParaSuffix, specSubSuffix,
            str_append_empty, str_append_assoc]
    | succ p =>
      have hcp := hpc p hp
      cases s? with
      | none =>
        simp [format_citation_fine, hart, hcp, specParaSuffix, specSubSuffix,
          str_append_empty, str_append_assoc]
      | some s =>
        cases s with
        | zero =>
          simp [format_citation_fine, hart, hcp, specParaSuffix, specSubSuffix,
            str_append_empty, str_append_assoc]
        | succ s =>
          have hcs := hpc s hs
          simp [format_citation_fine, hart, hcp, hcs, specParaSuffix, specSubSuffix,
            str_append_empty, str_append_assoc]

/-- Claim C3 (amended): for every hierarchy whose numeric fields are in the
formatter's domain, the citation is the law-title literal followed by the
article part — 第{main}條之{sub} with both parts numeral-converted when the
article is {digits}-{digits}, 第{n}條 numeral-converted when the article is
purely numeric, 第{article}條 verbatim otherwise — then 第{p}項 exactly when
paragraph is present and nonzero and 第{s}款 exactly when subparagraph is
present and nonzero, in the fixed order article→paragraph→subparagraph (a
field set to 0 renders no suffix, see the counterexample). -/
theorem citation_structure (h : HierarchyFine)
    (hp : boundOK h.paragraph) (hs : boundOK h.subparagraph) :
    (∀ m s, m ≤ 999 → s ≤ 999 → h.article = natStr m ++ "-" ++ natStr s →
      format_citation_fine h
        = some ("勞動基準法" ++ ("第" ++ specNumeral m ++ "條之" ++ specNumeral s)
            ++ specParaSuffix h.paragraph ++ specSubSuffix h.subparagraph)) ∧
    (∀ n, n ≤ 999 → h.article = natStr n →
      format_citation_fine h
        = some ("勞動基準法" ++ ("第" ++ specNumeral n ++ "條")
            ++ specParaSuffix h.paragraph ++ specSubSuffix h.subparagraph)) ∧
    (pyContains h.article.data '-' = false → pyIsdigit h.article = false →
      format_citation_fine h
        = some ("勞動基準法" ++ ("第" ++ h.article ++ "條")
            ++ specParaSuffix h.paragraph ++ specSubSuffix h.subparagraph)) := by
  refine ⟨?_, ?_, ?_⟩
  · intro m s hm hsle heq
    exact format_citation_fine_eq h _ (by rw [heq]; exact citationArtText_dash m s hm hsle) hp hs
  · intro n hn heq
    exact format_citation_fine_eq h _ (by rw [heq]; exact citationArtText_digits n hn) hp hs
  · intro h1 h2
    exact format_citation_fine_eq h _ (citationArtText_verbatim h.article h1 h2) hp hs

/-- Witness for C3 at the dash article 84-2 with no paragraph or
subparagraph: the citation is 勞動基準法第八十四條之二. -/
theorem citation_structure_witness :
    format_citation_fine ⟨"84-2", none, none⟩
      = some ("勞動基準法" ++ ("第" ++ specNumeral 84 ++ "條之" ++ specNumeral 2)
          ++ specParaSuffix none ++ specSubSuffix none) :=
  (citation_structure ⟨"84-2", none, none⟩ trivial trivial).1 84 2 (by decide) (by decide)
    (by decide)
